import Mathlib

/-!
Verification of the phone-usage billing program (`main.py`).

The embedding models:
* `PhoneNumber.parse`   — `PhoneNumber.__init__` (Python `str.strip("+")` plus
  fixed-offset slicing; indexing an empty string raises `IndexError`, which is
  modelled by `Option`);
* `CallInfo.get_call_duration` — `datetime` subtraction followed by
  `math.ceil(difference.seconds / 60)`, with timestamps modelled as
  microseconds since an arbitrary epoch (the value `datetime.fromisoformat`
  produces for a parseable timestamp);
* `CallInfo.get_call_type` / `charge_for_call` — the classifier and the rater,
  the latter reproducing the binary floating-point computation
  `Decimal(base + rate * duration).quantize(two decimal places)` at full
  bit-level fidelity (charges are represented in integer cents);
* `CustomerBill` with `update` — the mutable aggregate; the `assert` is
  modelled by returning the untouched bill together with the error payload;
* `calculate_bills` — the insertion-ordered account map (Python dicts preserve
  insertion order), modelled as an association list folded over the records.
-/

/-- Python `s.strip("+")` on a string modelled as a list of characters:
every leading and every trailing `+` is removed. -/
def stripPlus (s : List Char) : List Char :=
  ((s.dropWhile (fun c => c == '+')).reverse.dropWhile (fun c => c == '+')).reverse

structure PhoneNumber where
  country_code : Char
  area_code : List Char
  number : List Char
deriving DecidableEq, Repr

/-- `PhoneNumber.__init__`: strip `+` from both ends, then character 0 is the
country code, characters 1-3 the area code, characters 4 and on the
subscriber number.  Python slices out of range yield empty strings, but
`phone_number[0]` raises `IndexError` when the stripped string is empty;
that failure is the `none` case. -/
def PhoneNumber.parse (s : List Char) : Option PhoneNumber :=
  match stripPlus s with
  | [] => none
  | c :: rest => some { country_code := c, area_code := rest.take 3, number := rest.drop 3 }

/-- The parse behaviour the specification describes: strip exactly one
leading `+` when present (never a trailing one), then split at the same
fixed offsets.  Stated only to compare with `PhoneNumber.parse`. -/
def specStripOnePlus (s : List Char) : List Char :=
  match s with
  | '+' :: rest => rest
  | other => other

/-- Parsing as claimed by the specification (single leading `+` stripped). -/
def specParse (s : List Char) : Option PhoneNumber :=
  match specStripOnePlus s with
  | [] => none
  | c :: rest => some { country_code := c, area_code := rest.take 3, number := rest.drop 3 }

inductive CallCategory where
  | international
  | domestic
  | local
deriving DecidableEq, Repr

/-! ### The rater: binary64 arithmetic followed by Decimal quantization

`calculate_charge_for_call` evaluates `base + rate * duration` with Python
floats (IEEE 754 binary64) and only then converts to `Decimal` and quantizes
to two decimal places with the default `ROUND_HALF_EVEN`.  The float values
occurring here are all dyadic rationals `n / 2 ^ k` with `n : Nat`, so the
computation is modelled exactly on numerators: `fl53` rounds a numerator to
the 53 significant bits of a binary64 significand (round to nearest, ties to
even), keeping the scale fixed. -/

/-- Number of binary digits of `n` for `n < 256` (0 for 0). -/
def smallBitLen (n : Nat) : Nat :=
  if n = 0 then 0
  else if n < 2 then 1
  else if n < 4 then 2
  else if n < 8 then 3
  else if n < 16 then 4
  else if n < 32 then 5
  else if n < 64 then 6
  else if n < 128 then 7
  else 8

/-- Number of binary digits of `n` (0 for 0), peeling one byte per fuel step
so that the kernel can evaluate it cheaply; 16 bytes of fuel cover every
value occurring in this development (all are below `2 ^ 128`). -/
def bitLenAux : Nat → Nat → Nat
  | 0, _ => 0
  | fuel + 1, n => if n < 256 then smallBitLen n else bitLenAux fuel (n / 256) + 8

def bitLen (n : Nat) : Nat := bitLenAux 16 n

/-- Round `num / den` to the nearest integer, ties to even. -/
def rne (num den : Nat) : Nat :=
  let q := num / den
  let r := num % den
  if 2 * r < den then q
  else if 2 * r > den then q + 1
  else if q % 2 = 0 then q else q + 1

/-- Round the integer `p` (read at a fixed power-of-two scale) to 53
significant bits: the binary64 rounding of `p / 2 ^ k` expressed on the
numerator.  Values of at most 53 bits are exactly representable. -/
def fl53 (p : Nat) : Nat :=
  if bitLen p ≤ 53 then p
  else
    let sh := bitLen p - 53
    rne p (2 ^ sh) * 2 ^ sh

/-- Significand of the binary64 nearest to 0.2, which is
`sigFifth / 2 ^ 54`; the binary64 nearest to 0.1 is `sigFifth / 2 ^ 55`. -/
def sigFifth : Nat := 3602879701896397

/-- The binary64 nearest to 0.02 is `sigFiftieth / 2 ^ 58`. -/
def sigFiftieth : Nat := 5764607523034235

/-- `Decimal(p / 2 ^ k).quantize(two decimals, ROUND_HALF_EVEN)`, returned in
integer cents: the conversion from float to `Decimal` is exact, so this is
`p * 100 / 2 ^ k` rounded half-to-even. -/
def quantizeCents (p : Nat) (k : Nat) : Nat := rne (100 * p) (2 ^ k)

/-- The charge for a call of category `c` lasting `d` minutes, in cents.
This follows `CallInfo.calculate_charge_for_call` bit for bit:
`base + rate * duration` in binary64 (the product `rate * duration` is one
correctly rounded multiplication of the binary64 constant by the exactly
converted integer `d`; adding the base 1 for international calls is one more
correctly rounded addition; adding the base 0 is exact), then `Decimal`
quantization to two decimal places. -/
def charge_for_call : CallCategory → Nat → Nat
  | .international, d => quantizeCents (fl53 (2 ^ 54 + fl53 (sigFifth * d))) 54
  | .domestic, d => quantizeCents (fl53 (sigFifth * d)) 55
  | .local, d => quantizeCents (fl53 (sigFiftieth * d)) 58

/-- Bounded universal checker with binary splitting, so that kernel
evaluation needs only logarithmic stack depth: `checkAll P fuel lo n` checks
`P` on the `n` naturals starting at `lo`. -/
def checkAll (P : Nat → Bool) : Nat → Nat → Nat → Bool
  | 0, _, n => decide (n = 0)
  | fuel + 1, lo, n =>
    if n = 0 then true
    else if n = 1 then P lo
    else checkAll P fuel lo (n / 2) && checkAll P fuel (lo + n / 2) (n - n / 2)

/-- Boolean form of "the charge for duration `d` agrees with exact decimal
arithmetic in every category": the exact values in cents are
`100 + 20 d`, `10 d` and `2 d`. -/
def chargeExactAt (d : Nat) : Bool :=
  charge_for_call .international d == 100 + 20 * d
  && charge_for_call .domestic d == 10 * d
  && charge_for_call .local d == 2 * d

/-! ### Call records, durations and per-call bills -/

/-- Python `datetime.timedelta` normal form: `0 ≤ seconds < 86400` and
`0 ≤ microseconds < 1000000`, with any sign carried by `days`.
`ofMicroseconds` reproduces the normalization CPython applies to the result
of subtracting two datetimes whose difference is `t` microseconds
(Python `//` and `%` floor-divide, which for the positive divisors used here
coincide with Lean `Int` division). -/
structure Timedelta where
  days : Int
  seconds : Nat
  microseconds : Nat
deriving DecidableEq, Repr

def Timedelta.ofMicroseconds (t : Int) : Timedelta :=
  { days := t / 86400000000
  , seconds := (t % 86400000000).toNat / 1000000
  , microseconds := (t % 86400000000).toNat % 1000000 }

/-- One input row.  The two timestamps are modelled as the instants the
parseable ISO strings denote, in microseconds since a common epoch
(naive local time, exactly as `datetime.fromisoformat` produces). -/
structure CallInfo where
  account_number : List Char
  origination_number : List Char
  termination_number : List Char
  call_start : Int
  call_stop : Int
deriving DecidableEq, Repr

/-- `CallInfo.get_call_duration`: `math.ceil(difference.seconds / 60)` where
`difference = stop - start`; `(s + 59) / 60` is the ceiling of `s / 60` on
naturals. -/
def CallInfo.get_call_duration (info : CallInfo) : Nat :=
  let difference := Timedelta.ofMicroseconds (info.call_stop - info.call_start)
  (difference.seconds + 59) / 60

/-- `CallInfo.get_call_type`: parse both endpoints, compare country codes,
then area codes.  A parse failure (`IndexError` in Python) propagates as
`none`. -/
def CallInfo.get_call_type (info : CallInfo) : Option CallCategory :=
  match PhoneNumber.parse info.origination_number,
        PhoneNumber.parse info.termination_number with
  | some origin, some termination =>
      some (if origin.country_code ≠ termination.country_code then .international
            else if origin.area_code ≠ termination.area_code then .domestic
            else .local)
  | _, _ => none

/-- `CallInfo.calculate_charge_for_call`, in integer cents. -/
def CallInfo.calculate_charge_for_call (info : CallInfo) : Option Nat :=
  info.get_call_type.map fun t => charge_for_call t info.get_call_duration

/-- The per-account aggregate.  `charge` is in integer cents (the Python
value is a `Decimal` with exactly two decimal places throughout). -/
structure CustomerBill where
  account_number : List Char
  minutes_international : Nat
  num_international : Nat
  minutes_domestic : Nat
  num_domestic : Nat
  minutes_local : Nat
  num_local : Nat
  charge : Nat
deriving DecidableEq, Repr

/-- `CustomerBill.__init__` together with `set_call_metrics`: a bill seeded
from a single call; fails exactly when the call record fails to classify. -/
def CustomerBill.ofCallInfo (info : CallInfo) : Option CustomerBill :=
  info.get_call_type.map fun call_type =>
    let duration := info.get_call_duration
    { account_number := info.account_number
    , minutes_international := if call_type = .international then duration else 0
    , num_international := if call_type = .international then 1 else 0
    , minutes_domestic := if call_type = .domestic then duration else 0
    , num_domestic := if call_type = .domestic then 1 else 0
    , minutes_local := if call_type = .local then duration else 0
    , num_local := if call_type = .local then 1 else 0
    , charge := charge_for_call call_type duration }

/-- The running-total additions performed by the body of
`CustomerBill.update` once its `assert` has passed.  The `quantize` applied
to `new_call_info.charge` is the identity on a value that already has two
decimal places (an integer number of cents). -/
def mergeBills (self other : CustomerBill) : CustomerBill :=
  { self with
      minutes_international := self.minutes_international + other.minutes_international
    , minutes_domestic := self.minutes_domestic + other.minutes_domestic
    , minutes_local := self.minutes_local + other.minutes_local
    , num_international := self.num_international + other.num_international
    , num_domestic := self.num_domestic + other.num_domestic
    , num_local := self.num_local + other.num_local
    , charge := self.charge + other.charge }

/-- `CustomerBill.update`: the `assert` guards the mutation, so the result is
the (possibly) mutated bill together with the raised assertion payload, the
two account numbers named in the message.  When the accounts differ nothing
has been mutated yet, so the first component is `self` unchanged. -/
def CustomerBill.update (self other : CustomerBill) :
    CustomerBill × Option (List Char × List Char) :=
  if self.account_number = other.account_number then (mergeBills self other, none)
  else (self, some (self.account_number, other.account_number))

/-! ### The aggregator

Python dicts iterate in insertion order, so the account map is an
association list, with new accounts appended at the end and
`map[account].update(bill)` editing an entry in place. -/

def lookupBill : List (List Char × CustomerBill) → List Char → Option CustomerBill
  | [], _ => none
  | (k, v) :: rest, key => if k = key then some v else lookupBill rest key

/-- `account_number_to_customer_bill_map[key].update(bill)`: update the entry
in place; a raised assertion aborts (`none`); a missing key would be a
`KeyError` (`none`), though `calculate_bills` only calls this when the key is
present. -/
def updateBillInMap :
    List (List Char × CustomerBill) → List Char → CustomerBill →
    Option (List (List Char × CustomerBill))
  | [], _, _ => none
  | (k, v) :: rest, key, bill =>
    if k = key then
      match v.update bill with
      | (merged, none) => some ((k, merged) :: rest)
      | (_, some _) => none
    else
      (updateBillInMap rest key bill).map (fun tail => (k, v) :: tail)

/-- One iteration of the loop in `calculate_bills`. -/
def billStep (acc : List (List Char × CustomerBill)) (info : CallInfo) :
    Option (List (List Char × CustomerBill)) := do
  let bill ← CustomerBill.ofCallInfo info
  match lookupBill acc info.account_number with
  | none => some (acc ++ [(info.account_number, bill)])
  | some _ => updateBillInMap acc info.account_number bill

/-- The loop of `calculate_bills` over the remaining records; an exception in
any iteration aborts the whole run (`none`). -/
def runBills : List (List Char × CustomerBill) → List CallInfo →
    Option (List (List Char × CustomerBill))
  | acc, [] => some acc
  | acc, info :: rest =>
    match billStep acc info with
    | none => none
    | some acc2 => runBills acc2 rest

/-- `calculate_bills`: fold the records through the account map and return
the values in insertion order.  `none` models an uncaught exception
(`IndexError` from phone parsing, or the merge assertion). -/
def calculate_bills (call_infos : List CallInfo) : Option (List CustomerBill) :=
  (runBills [] call_infos).map (List.map Prod.snd)

/-! ### Statement-side helpers -/

/-- First-appearance order: the distinct elements of the list, each kept at
its first occurrence, skipping those already `seen`. -/
def firstSeen (seen : List (List Char)) : List (List Char) → List (List Char)
  | [] => []
  | a :: rest => if a ∈ seen then firstSeen seen rest else a :: firstSeen (a :: seen) rest

/-- Minutes a single call contributes to category `c`. -/
def callMinutes (c : CallCategory) (info : CallInfo) : Nat :=
  if info.get_call_type = some c then info.get_call_duration else 0

/-- Call count a single call contributes to category `c`. -/
def callCount (c : CallCategory) (info : CallInfo) : Nat :=
  if info.get_call_type = some c then 1 else 0

/-- The individually rounded charge of a single call, in cents. -/
def callCharge (info : CallInfo) : Nat :=
  info.calculate_charge_for_call.getD 0

/-- Keys of the account map, in insertion order. -/
def mapKeys (m : List (List Char × CustomerBill)) : List (List Char) := m.map Prod.fst

/-- Invariant of the account map: every stored bill carries the account number it is filed under. -/
def WellKeyed (m : List (List Char × CustomerBill)) : Prop :=
  ∀ p ∈ m, p.2.account_number = p.1

/-! ### Concrete records used to witness the aggregation claims -/

/-- A two-minute international call on account 1. -/
def witnessCallA : CallInfo :=
  { account_number := ['1']
  , origination_number := ['+', '1', '5', '5', '5', '1']
  , termination_number := ['+', '2', '6', '6', '6', '1']
  , call_start := 0
  , call_stop := 120000000 }

/-- A two-minute domestic call on account 2. -/
def witnessCallB : CallInfo :=
  { account_number := ['2']
  , origination_number := ['+', '1', '5', '5', '5', '1']
  , termination_number := ['+', '1', '6', '6', '6', '1']
  , call_start := 0
  , call_stop := 120000000 }

/-- A two-minute international call on account 4. -/
def witnessCallC : CallInfo :=
  { account_number := ['4']
  , origination_number := ['+', '1', '5', '5', '5', '2']
  , termination_number := ['+', '2', '6', '6', '6', '2']
  , call_start := 0
  , call_stop := 120000000 }

/-- A two-minute domestic call on account 4. -/
def witnessCallD : CallInfo :=
  { account_number := ['4']
  , origination_number := ['+', '1', '5', '5', '5', '2']
  , termination_number := ['+', '1', '6', '6', '6', '2']
  , call_start := 0
  , call_stop := 120000000 }

/-! ### General lemmas -/

theorem checkAll_sound (P : Nat → Bool) :
    ∀ fuel lo n, checkAll P fuel lo n = true → ∀ i, i < n → P (lo + i) = true := by
  intro fuel
  induction fuel with
  | zero =>
    intro lo n h i hi
    simp only [checkAll, decide_eq_true_eq] at h
    omega
  | succ fuel ih =>
    intro lo n h i hi
    by_cases h0 : n = 0
    · omega
    · by_cases h1 : n = 1
      · have hz : i = 0 := by omega
        subst hz
        rw [checkAll, if_neg h0, if_pos h1] at h
        simpa using h
      · rw [checkAll, if_neg h0, if_neg h1, Bool.and_eq_true] at h
        obtain ⟨hL, hR⟩ := h
        by_cases hlt : i < n / 2
        · exact ih lo (n / 2) hL i hlt
        · have h2 := ih (lo + n / 2) (n - n / 2) hR (i - n / 2) (by omega)
          have he : lo + n / 2 + (i - n / 2) = lo + i := by omega
          rwa [he] at h2

/-- Ceiling of an integer divided by sixty, as a floor division. -/
theorem ceil_div_sixty (k : Int) : ⌈(k : ℚ) / 60⌉ = (k + 59) / 60 := by
  have h1 : 60 * ((k + 59) / 60) < k + 60 := by omega
  have h2 : k ≤ 60 * ((k + 59) / 60) := by omega
  rw [Int.ceil_eq_iff]
  constructor
  · rw [lt_div_iff₀ (by norm_num : (0 : ℚ) < 60)]
    have h1q : (60 : ℚ) * ((((k + 59) / 60) : Int) : ℚ) < (k : ℚ) + 60 := by exact_mod_cast h1
    linarith
  · rw [div_le_iff₀ (by norm_num : (0 : ℚ) < 60)]
    have h2q : (k : ℚ) ≤ (60 : ℚ) * ((((k + 59) / 60) : Int) : ℚ) := by exact_mod_cast h2
    linarith

theorem mapKeys_cons (p : List Char × CustomerBill) (rest : List (List Char × CustomerBill)) :
    mapKeys (p :: rest) = p.1 :: mapKeys rest := rfl

theorem mapKeys_append (m1 m2 : List (List Char × CustomerBill)) :
    mapKeys (m1 ++ m2) = mapKeys m1 ++ mapKeys m2 := List.map_append _ _ _

theorem lookupBill_eq_none : ∀ (m : List (List Char × CustomerBill)) (key : List Char),
    lookupBill m key = none ↔ key ∉ mapKeys m
  | [], key => by simp [lookupBill, mapKeys]
  | (k, v) :: rest, key => by
    rw [mapKeys_cons, List.mem_cons]
    simp only [lookupBill]
    by_cases h : k = key
    · subst h
      simp
    · rw [if_neg h, lookupBill_eq_none rest key]
      constructor
      · intro hn hor
        rcases hor with h1 | h1
        · exact h h1.symm
        · exact hn h1
      · intro hn h1
        exact hn (Or.inr h1)

theorem update_eq_merge (b1 b2 : CustomerBill) (h : b1.account_number = b2.account_number) :
    b1.update b2 = (mergeBills b1 b2, none) := by
  unfold CustomerBill.update
  rw [if_pos h]

/-- Every field of the bill built from a single call, expressed through the per-call helpers. -/
theorem ofCallInfo_fields (i : CallInfo) (b : CustomerBill)
    (hb : CustomerBill.ofCallInfo i = some b) :
    b.account_number = i.account_number ∧
    b.minutes_international = callMinutes .international i ∧
    b.num_international = callCount .international i ∧
    b.minutes_domestic = callMinutes .domestic i ∧
    b.num_domestic = callCount .domestic i ∧
    b.minutes_local = callMinutes .local i ∧
    b.num_local = callCount .local i ∧
    b.charge = callCharge i := by
  unfold CustomerBill.ofCallInfo at hb
  cases h : i.get_call_type with
  | none => rw [h] at hb; simp at hb
  | some ct =>
    rw [h] at hb
    simp only [Option.map_some', Option.some.injEq] at hb
    subst hb
    refine ⟨rfl, ?_, ?_, ?_, ?_, ?_, ?_, ?_⟩ <;>
      simp [callMinutes, callCount, callCharge, CallInfo.calculate_charge_for_call, h]

theorem updateBillInMap_spec :
    ∀ (m : List (List Char × CustomerBill)) (key : List Char) (nb : CustomerBill),
      WellKeyed m → nb.account_number = key → key ∈ mapKeys m →
      ∃ m2, updateBillInMap m key nb = some m2 ∧ WellKeyed m2 ∧ mapKeys m2 = mapKeys m := by
  intro m
  induction m with
  | nil =>
    intro key nb _ _ hk
    simp [mapKeys] at hk
  | cons p rest ih =>
    intro key nb hw hnb hk
    obtain ⟨k, v⟩ := p
    by_cases h : k = key
    · subst h
      have hv : v.account_number = k := hw (k, v) (by simp)
      have hacc : v.account_number = nb.account_number := by rw [hv, hnb]
      simp only [updateBillInMap, if_pos rfl, update_eq_merge v nb hacc]
      refine ⟨_, rfl, ?_, ?_⟩
      · intro q hq
        rcases List.mem_cons.mp hq with h1 | h2
        · subst h1; simpa using hv
        · exact hw q (List.mem_cons_of_mem _ h2)
      · simp [mapKeys]
    · have hk2 : key ∈ mapKeys rest := by
        rcases List.mem_cons.mp hk with h1 | h2
        · exact absurd h1.symm h
        · exact h2
      obtain ⟨m2, hm2, hw2, hkeys2⟩ :=
        ih key nb (fun q hq => hw q (List.mem_cons_of_mem _ hq)) hnb hk2
      simp only [updateBillInMap, if_neg h, hm2, Option.map_some', Option.some.injEq]
      refine ⟨(k, v) :: m2, rfl, ?_, ?_⟩
      · intro q hq
        rcases List.mem_cons.mp hq with h1 | h2
        · subst h1; exact hw (k, v) (by simp)
        · exact hw2 q h2
      · rw [mapKeys_cons, mapKeys_cons, hkeys2]

/-- The result of `firstSeen` only depends on the membership of `seen`. -/
theorem firstSeen_congr : ∀ (l s1 s2 : List (List Char)),
    (∀ x, x ∈ s1 ↔ x ∈ s2) → firstSeen s1 l = firstSeen s2 l
  | [], _, _, _ => rfl
  | a :: rest, s1, s2, hs => by
    simp only [firstSeen]
    by_cases h : a ∈ s1
    · rw [if_pos h, if_pos ((hs a).mp h)]
      exact firstSeen_congr rest s1 s2 hs
    · rw [if_neg h, if_neg (fun hc => h ((hs a).mpr hc))]
      rw [firstSeen_congr rest (a :: s1) (a :: s2) (by intro x; simp [hs x])]

theorem mem_firstSeen (x : List Char) : ∀ (l seen : List (List Char)),
    x ∈ firstSeen seen l ↔ x ∈ l ∧ x ∉ seen
  | [], seen => by simp [firstSeen]
  | a :: rest, seen => by
    simp only [firstSeen]
    by_cases h : a ∈ seen
    · rw [if_pos h, mem_firstSeen x rest seen]
      constructor
      · rintro ⟨h1, h2⟩
        exact ⟨List.mem_cons_of_mem _ h1, h2⟩
      · rintro ⟨h1, h2⟩
        rcases List.mem_cons.mp h1 with rfl | h1
        · exact absurd h h2
        · exact ⟨h1, h2⟩
    · rw [if_neg h, List.mem_cons, mem_firstSeen x rest (a :: seen)]
      constructor
      · rintro (rfl | ⟨h1, h2⟩)
        · exact ⟨List.mem_cons_self _ _, h⟩
        · exact ⟨List.mem_cons_of_mem _ h1, fun hx => h2 (List.mem_cons_of_mem _ hx)⟩
      · rintro ⟨h1, h2⟩
        rcases List.mem_cons.mp h1 with rfl | h1
        · exact Or.inl rfl
        · by_cases hxa : x = a
          · exact Or.inl hxa
          · refine Or.inr ⟨h1, ?_⟩
            intro hx
            rcases List.mem_cons.mp hx with h3 | h3
            · exact hxa h3
            · exact h2 h3

theorem firstSeen_nodup : ∀ (l seen : List (List Char)), (firstSeen seen l).Nodup
  | [], _ => by simp [firstSeen]
  | a :: rest, seen => by
    simp only [firstSeen]
    by_cases h : a ∈ seen
    · rw [if_pos h]
      exact firstSeen_nodup rest seen
    · rw [if_neg h]
      refine List.nodup_cons.mpr ⟨?_, firstSeen_nodup rest (a :: seen)⟩
      intro hmem
      exact ((mem_firstSeen a rest (a :: seen)).mp hmem).2 (List.mem_cons_self _ _)

/-- Main loop invariant: the fold succeeds on parseable records and extends the key list by the accounts not seen before, in first appearance order. -/
theorem runBills_keys :
    ∀ (infos : List CallInfo) (m : List (List Char × CustomerBill)),
      WellKeyed m → (∀ i ∈ infos, (CustomerBill.ofCallInfo i).isSome) →
      ∃ m2, runBills m infos = some m2 ∧ WellKeyed m2 ∧
        mapKeys m2 = mapKeys m ++ firstSeen (mapKeys m) (infos.map CallInfo.account_number) := by
  intro infos
  induction infos with
  | nil =>
    intro m hw _
    exact ⟨m, rfl, hw, by simp [firstSeen]⟩
  | cons i rest ih =>
    intro m hw hps
    obtain ⟨b, hb⟩ := Option.isSome_iff_exists.mp (hps i (by simp))
    have hbacc : b.account_number = i.account_number := (ofCallInfo_fields i b hb).1
    cases hl : lookupBill m i.account_number with
    | none =>
      have hnotin : i.account_number ∉ mapKeys m := (lookupBill_eq_none m _).mp hl
      have hstep : billStep m i = some (m ++ [(i.account_number, b)]) := by
        simp [billStep, hb, hl]
      have hw2 : WellKeyed (m ++ [(i.account_number, b)]) := by
        intro q hq
        rcases List.mem_append.mp hq with h1 | h2
        · exact hw q h1
        · simp at h2
          subst h2
          simpa using hbacc
      obtain ⟨m2, hm2, hw3, hkeys⟩ :=
        ih (m ++ [(i.account_number, b)]) hw2 (fun j hj => hps j (by simp [hj]))
      refine ⟨m2, ?_, hw3, ?_⟩
      · simp only [runBills, hstep, hm2]
      · rw [hkeys]
        have hmk : mapKeys (m ++ [(i.account_number, b)]) = mapKeys m ++ [i.account_number] := by
          simp [mapKeys]
        rw [hmk, List.map_cons]
        simp only [firstSeen]
        rw [if_neg hnotin, List.append_assoc, List.singleton_append]
        have hfc : firstSeen (mapKeys m ++ [i.account_number])
              (List.map CallInfo.account_number rest)
            = firstSeen (i.account_number :: mapKeys m)
              (List.map CallInfo.account_number rest) :=
          firstSeen_congr _ _ _ (fun x => by simp [or_comm])
        rw [hfc]
    | some v =>
      have hkin : i.account_number ∈ mapKeys m := by
        by_contra hc
        rw [← lookupBill_eq_none m _] at hc
        rw [hl] at hc
        exact Option.noConfusion hc
      obtain ⟨m1, hm1, hw1, hkeys1⟩ := updateBillInMap_spec m i.account_number b hw hbacc hkin
      have hstep : billStep m i = some m1 := by
        simp [billStep, hb, hl, hm1]
      obtain ⟨m2, hm2, hw2, hkeys2⟩ := ih m1 hw1 (fun j hj => hps j (by simp [hj]))
      refine ⟨m2, ?_, hw2, ?_⟩
      · simp only [runBills, hstep, hm2]
      · rw [hkeys2, hkeys1, List.map_cons]
        simp only [firstSeen]
        rw [if_pos hkin]

/-- The fold over records of a single account `a` keeps one map entry and accumulates the per-call sums on it. -/
theorem runBills_single_account (a : List Char) :
    ∀ (infos : List CallInfo) (b0 : CustomerBill),
      b0.account_number = a →
      (∀ i ∈ infos, i.account_number = a) →
      (∀ i ∈ infos, (CustomerBill.ofCallInfo i).isSome) →
      ∃ bill, runBills [(a, b0)] infos = some [(a, bill)] ∧
        bill.account_number = a ∧
        bill.minutes_international
          = b0.minutes_international + (infos.map (callMinutes .international)).sum ∧
        bill.num_international
          = b0.num_international + (infos.map (callCount .international)).sum ∧
        bill.minutes_domestic
          = b0.minutes_domestic + (infos.map (callMinutes .domestic)).sum ∧
        bill.num_domestic
          = b0.num_domestic + (infos.map (callCount .domestic)).sum ∧
        bill.minutes_local
          = b0.minutes_local + (infos.map (callMinutes .local)).sum ∧
        bill.num_local
          = b0.num_local + (infos.map (callCount .local)).sum ∧
        bill.charge = b0.charge + (infos.map callCharge).sum
  | [], b0, hb0, _, _ =>
    ⟨b0, rfl, hb0, by simp, by simp, by simp, by simp, by simp, by simp, by simp⟩
  | i :: rest, b0, hb0, hsame, hps => by
    obtain ⟨b, hb⟩ := Option.isSome_iff_exists.mp (hps i (by simp))
    obtain ⟨hacc, hmi, hni, hmd, hnd, hml, hnl, hch⟩ := ofCallInfo_fields i b hb
    have hia : i.account_number = a := hsame i (by simp)
    have hlook : lookupBill [(a, b0)] i.account_number = some b0 := by
      simp [lookupBill, hia]
    have haeq : b0.account_number = b.account_number := by rw [hb0, hacc, hia]
    have hmap : updateBillInMap [(a, b0)] i.account_number b = some [(a, mergeBills b0 b)] := by
      simp [updateBillInMap, hia, update_eq_merge b0 b haeq]
    have hstep : billStep [(a, b0)] i = some [(a, mergeBills b0 b)] := by
      simp [billStep, hb, hlook, hmap]
    obtain ⟨bill, hrun, hba, h1, h2, h3, h4, h5, h6, h7⟩ :=
      runBills_single_account a rest (mergeBills b0 b) hb0
        (fun j hj => hsame j (by simp [hj])) (fun j hj => hps j (by simp [hj]))
    simp only [mergeBills] at h1 h2 h3 h4 h5 h6 h7
    refine ⟨bill, ?_, hba, ?_, ?_, ?_, ?_, ?_, ?_, ?_⟩
    · simp only [runBills, hstep, hrun]
    · rw [h1, List.map_cons, List.sum_cons, hmi]
      omega
    · rw [h2, List.map_cons, List.sum_cons, hni]
      omega
    · rw [h3, List.map_cons, List.sum_cons, hmd]
      omega
    · rw [h4, List.map_cons, List.sum_cons, hnd]
      omega
    · rw [h5, List.map_cons, List.sum_cons, hml]
      omega
    · rw [h6, List.map_cons, List.sum_cons, hnl]
      omega
    · rw [h7, List.map_cons, List.sum_cons, hch]
      omega

/-- Classification only compares the two parsed endpoints with symmetric tests, so swapping the numbers changes nothing. -/
theorem get_call_type_swap (a o t : List Char) (s e : Int) :
    (CallInfo.mk a o t s e).get_call_type = (CallInfo.mk a t o s e).get_call_type := by
  unfold CallInfo.get_call_type
  simp only
  cases hp : PhoneNumber.parse o with
  | none => cases hq : PhoneNumber.parse t <;> rfl
  | some po =>
    cases hq : PhoneNumber.parse t with
    | none => rfl
    | some pt =>
      simp only [Option.some.injEq]
      by_cases hc : po.country_code = pt.country_code
      · by_cases ha : po.area_code = pt.area_code
        · simp [hc, ha]
        · simp [hc, ha, Ne.symm ha]
      · simp [hc, Ne.symm hc]

/-! ### The claims -/

/-- Claim C1 (confirmed for parseable records): `calculate_bills` returns exactly one `CustomerBill` per distinct `account_number`, ordered by the first appearance of each account in the input. -/
theorem c1_bills_per_account_first_seen (infos : List CallInfo)
    (hps : ∀ i ∈ infos, (CustomerBill.ofCallInfo i).isSome) :
    ∃ bills, calculate_bills infos = some bills ∧
      bills.map CustomerBill.account_number
        = firstSeen [] (infos.map CallInfo.account_number) ∧
      (bills.map CustomerBill.account_number).Nodup ∧
      (∀ a, a ∈ bills.map CustomerBill.account_number
          ↔ a ∈ infos.map CallInfo.account_number) := by
  obtain ⟨m2, hm2, hw2, hkeys⟩ :=
    runBills_keys infos [] (fun p hp => absurd hp (List.not_mem_nil p)) hps
  have hkeys2 : mapKeys m2 = firstSeen [] (infos.map CallInfo.account_number) := by
    rw [hkeys]
    rfl
  have haccs : (m2.map Prod.snd).map CustomerBill.account_number = mapKeys m2 := by
    rw [List.map_map]
    exact List.map_congr_left (fun p hp => hw2 p hp)
  refine ⟨m2.map Prod.snd, ?_, ?_, ?_, ?_⟩
  · rw [calculate_bills, hm2]
    rfl
  · rw [haccs, hkeys2]
  · rw [haccs, hkeys2]
    exact firstSeen_nodup _ _
  · intro a
    rw [haccs, hkeys2, mem_firstSeen]
    simp

/-- Witness for C1: two records on distinct accounts. -/
theorem c1_witness :
    ∃ bills, calculate_bills [witnessCallA, witnessCallB] = some bills ∧
      bills.map CustomerBill.account_number
        = firstSeen [] ([witnessCallA, witnessCallB].map CallInfo.account_number) ∧
      (bills.map CustomerBill.account_number).Nodup ∧
      (∀ a, a ∈ bills.map CustomerBill.account_number
          ↔ a ∈ [witnessCallA, witnessCallB].map CallInfo.account_number) :=
  c1_bills_per_account_first_seen [witnessCallA, witnessCallB] (by decide)

/-- Claim C2 (confirmed for parseable records): aggregating a nonempty list of records of one account yields a single bill whose per-category minutes and counts are the integer sums of the per-call values, and whose charge is the sum of the individually rounded per-call charges. -/
theorem c2_single_account_totals (infos : List CallInfo) (a : List Char)
    (hne : infos ≠ [])
    (hsame : ∀ i ∈ infos, i.account_number = a)
    (hps : ∀ i ∈ infos, (CustomerBill.ofCallInfo i).isSome) :
    ∃ bill, calculate_bills infos = some [bill] ∧
      bill.account_number = a ∧
      bill.minutes_international = (infos.map (callMinutes .international)).sum ∧
      bill.num_international = (infos.map (callCount .international)).sum ∧
      bill.minutes_domestic = (infos.map (callMinutes .domestic)).sum ∧
      bill.num_domestic = (infos.map (callCount .domestic)).sum ∧
      bill.minutes_local = (infos.map (callMinutes .local)).sum ∧
      bill.num_local = (infos.map (callCount .local)).sum ∧
      bill.charge = (infos.map callCharge).sum := by
  match infos, hne with
  | i :: rest, _ =>
    obtain ⟨b, hb⟩ := Option.isSome_iff_exists.mp (hps i (by simp))
    obtain ⟨hacc, hmi, hni, hmd, hnd, hml, hnl, hch⟩ := ofCallInfo_fields i b hb
    have hia : i.account_number = a := hsame i (by simp)
    have hstep : billStep [] i = some [(i.account_number, b)] := by
      simp [billStep, hb, lookupBill]
    obtain ⟨bill, hrun, hba, h1, h2, h3, h4, h5, h6, h7⟩ :=
      runBills_single_account a rest b (hacc.trans hia)
        (fun j hj => hsame j (by simp [hj])) (fun j hj => hps j (by simp [hj]))
    refine ⟨bill, ?_, hba, ?_, ?_, ?_, ?_, ?_, ?_, ?_⟩
    · rw [calculate_bills]
      simp only [runBills, hstep, hia, hrun]
      rfl
    · rw [List.map_cons, List.sum_cons, ← hmi, h1]
    · rw [List.map_cons, List.sum_cons, ← hni, h2]
    · rw [List.map_cons, List.sum_cons, ← hmd, h3]
    · rw [List.map_cons, List.sum_cons, ← hnd, h4]
    · rw [List.map_cons, List.sum_cons, ← hml, h5]
    · rw [List.map_cons, List.sum_cons, ← hnl, h6]
    · rw [List.map_cons, List.sum_cons, ← hch, h7]

/-- Witness for C2: an international and a domestic call on one account. -/
theorem c2_witness :
    ∃ bill, calculate_bills [witnessCallC, witnessCallD] = some [bill] ∧
      bill.account_number = ['4'] ∧
      bill.minutes_international
        = ([witnessCallC, witnessCallD].map (callMinutes .international)).sum ∧
      bill.num_international
        = ([witnessCallC, witnessCallD].map (callCount .international)).sum ∧
      bill.minutes_domestic
        = ([witnessCallC, witnessCallD].map (callMinutes .domestic)).sum ∧
      bill.num_domestic
        = ([witnessCallC, witnessCallD].map (callCount .domestic)).sum ∧
      bill.minutes_local
        = ([witnessCallC, witnessCallD].map (callMinutes .local)).sum ∧
      bill.num_local
        = ([witnessCallC, witnessCallD].map (callCount .local)).sum ∧
      bill.charge = ([witnessCallC, witnessCallD].map callCharge).sum :=
  c2_single_account_totals [witnessCallC, witnessCallD] ['4']
    (by decide) (by decide) (by decide)

/-- Claim C3 counterexample: the claim ranges over all durations `d ≥ 0`, but at duration 704000000000001 the binary floating-point evaluation of `0 + 0.1 * d` yields 7040000000000011 cents after quantization, one cent above the exact decimal value `10 * d`; the charge is not computed with exact decimal arithmetic. -/
theorem c3_counterexample :
    charge_for_call .domestic 704000000000001 = 7040000000000011 ∧
    (7040000000000011 : Nat) ≠ 10 * 704000000000001 := by decide

set_option maxHeartbeats 4000000 in
/-- Claim C3 as amended: for every duration up to 1440 — and `get_call_duration` can never exceed 1440 — the charge of each category equals `base + rate * d` in exact decimal arithmetic, rounded to two decimal places (stated in cents: 100 + 20 d, 10 d, 2 d); in particular for duration 0 the charge is exactly the base. -/
theorem c3_charge_exact_on_reachable_durations :
    (∀ d : Nat, d ≤ 1440 →
        charge_for_call .international d = 100 + 20 * d ∧
        charge_for_call .domestic d = 10 * d ∧
        charge_for_call .local d = 2 * d) ∧
    (∀ info : CallInfo, info.get_call_duration ≤ 1440) := by
  constructor
  · have hchk : checkAll chargeExactAt 16 0 1441 = true := by decide
    intro d hd
    have h := checkAll_sound chargeExactAt 16 0 1441 hchk d (by omega)
    rw [Nat.zero_add] at h
    simp only [chargeExactAt, Bool.and_eq_true, beq_iff_eq] at h
    exact ⟨h.1.1, h.1.2, h.2⟩
  · intro info
    show (((info.call_stop - info.call_start) % 86400000000).toNat / 1000000 + 59) / 60 ≤ 1440
    omega

/-- Witness for C3 at duration 2: an international call of 2 minutes costs 1.40. -/
theorem c3_witness :
    (2 : Nat) ≤ 1440 ∧ charge_for_call .international 2 = 100 + 20 * 2 :=
  ⟨by decide, (c3_charge_exact_on_reachable_durations.1 2 (by decide)).1⟩

/-- Claim C4 (confirmed): `get_call_duration` equals the ceiling of the whole-second elapsed time taken modulo 86400 divided by 60; it is a natural number, and a call of zero elapsed time bills zero minutes. -/
theorem c4_duration_ceiling_formula :
    (∀ (a o t : List Char) (start stop : Int),
        (((CallInfo.mk a o t start stop).get_call_duration : Nat) : Int) =
          ⌈((((stop - start) / 1000000) % 86400 : Int) : ℚ) / 60⌉) ∧
    (∀ (a o t : List Char) (ts : Int),
        (CallInfo.mk a o t ts ts).get_call_duration = 0) := by
  constructor
  · intro a o t start stop
    show (((((stop - start) % 86400000000).toNat / 1000000 + 59) / 60 : Nat) : Int) =
      ⌈((((stop - start) / 1000000) % 86400 : Int) : ℚ) / 60⌉
    rw [ceil_div_sixty]
    omega
  · intro a o t ts
    show ((((ts - ts) % 86400000000).toNat / 1000000 + 59) / 60 : Nat) = 0
    norm_num

/-- Claim C5 (confirmed): when both numbers parse, the call is international exactly when the country codes differ, otherwise domestic exactly when the area codes differ, otherwise local; identical numbers classify as local. -/
theorem c5_call_type_classification (info : CallInfo) (po pt : PhoneNumber)
    (h1 : PhoneNumber.parse info.origination_number = some po)
    (h2 : PhoneNumber.parse info.termination_number = some pt) :
    info.get_call_type =
      some (if po.country_code ≠ pt.country_code then .international
            else if po.area_code ≠ pt.area_code then .domestic
            else .local) ∧
    (info.origination_number = info.termination_number →
      info.get_call_type = some .local) := by
  constructor
  · simp [CallInfo.get_call_type, h1, h2]
  · intro he
    rw [he] at h1
    have hpp : po = pt := by
      have := h1.symm.trans h2
      injection this
    subst hpp
    simp [CallInfo.get_call_type, he, h1]

/-- Witness for C5: distinct country codes give an international call. -/
theorem c5_witness :
    (CallInfo.mk ['9'] ['+', '1', '5', '5', '5', '9'] ['+', '2', '5', '5', '5', '9'] 0 0).get_call_type
      = some CallCategory.international := by
  have h := c5_call_type_classification
    (CallInfo.mk ['9'] ['+', '1', '5', '5', '5', '9'] ['+', '2', '5', '5', '5', '9'] 0 0)
    { country_code := '1', area_code := ['5', '5', '5'], number := ['9'] }
    { country_code := '2', area_code := ['5', '5', '5'], number := ['9'] }
    (by decide) (by decide)
  rw [h.1]
  decide

/-- Claim C6 counterexample: parsing does not strip only a single leading plus; Python `strip` also removes trailing pluses, so the string `1+` parses differently from what the claim describes. -/
theorem c6_counterexample : PhoneNumber.parse ['1', '+'] ≠ specParse ['1', '+'] := by decide

/-- Claim C6 as amended: parsing strips every leading and trailing plus (Python `str.strip`), then takes character 0 as country code, characters 1-3 as area code and characters 4 and on as subscriber number. -/
theorem c6_strip_all_plus (s : List Char) (c : Char) (rest : List Char)
    (h : stripPlus s = c :: rest) :
    PhoneNumber.parse s =
      some { country_code := c
           , area_code := ((stripPlus s).drop 1).take 3
           , number := (stripPlus s).drop 4 } := by
  simp [PhoneNumber.parse, h]

/-- Witness for C6: a doubly prefixed number. -/
theorem c6_witness :
    stripPlus ['+', '+', '1', '5'] = ['1', '5'] ∧
    PhoneNumber.parse ['+', '+', '1', '5'] =
      some { country_code := '1', area_code := ['5'], number := [] } :=
  ⟨by decide, c6_strip_all_plus _ '1' ['5'] (by decide)⟩

/-- Claim C7 counterexample: the claim ranges over every string whose stripped form is shorter than 4; for the string made of one plus the stripped form is empty and parsing raises `IndexError` instead of succeeding. -/
theorem c7_counterexample :
    (stripPlus ['+']).length < 4 ∧ PhoneNumber.parse ['+'] = none := by decide

/-- Claim C7 as amended: every string whose stripped form has between 1 and 3 characters parses without error, the subscriber number becomes empty and the area code is the (possibly empty) remainder after the country code. -/
theorem c7_short_input_parses (s : List Char)
    (h1 : stripPlus s ≠ []) (h2 : (stripPlus s).length < 4) :
    ∃ p : PhoneNumber, PhoneNumber.parse s = some p ∧
      p.area_code = (stripPlus s).drop 1 ∧ p.number = [] := by
  match hs : stripPlus s with
  | [] => exact absurd hs h1
  | c :: rest =>
    rw [hs] at h2
    simp only [List.length_cons] at h2
    refine ⟨{ country_code := c, area_code := rest.take 3, number := rest.drop 3 }, ?_, ?_, ?_⟩
    · simp [PhoneNumber.parse, hs]
    · simp only [hs, List.drop_succ_cons, List.drop_zero]
      exact List.take_of_length_le (by omega)
    · simp only []
      exact List.drop_eq_nil_of_le (by omega)

/-- Witness for C7: a two-character number. -/
theorem c7_witness :
    stripPlus ['+', '1', '2'] ≠ [] ∧ (stripPlus ['+', '1', '2']).length < 4 ∧
    ∃ p : PhoneNumber, PhoneNumber.parse ['+', '1', '2'] = some p ∧
      p.area_code = (stripPlus ['+', '1', '2']).drop 1 ∧ p.number = [] :=
  ⟨by decide, by decide, c7_short_input_parses _ (by decide) (by decide)⟩

/-- Claim C8 (confirmed): `update` raises exactly when the two account numbers differ, and the assertion payload names both conflicting accounts; merging bills of one account never raises. -/
theorem c8_update_fails_iff_accounts_differ (b1 b2 : CustomerBill) :
    ((b1.update b2).2 = none ↔ b1.account_number = b2.account_number) ∧
    (b1.account_number ≠ b2.account_number →
      (b1.update b2).2 = some (b1.account_number, b2.account_number)) := by
  unfold CustomerBill.update
  by_cases h : b1.account_number = b2.account_number <;> simp [h]

/-- Witness for C8: merging bills of accounts 1 and 2 raises with both accounts named. -/
theorem c8_witness :
    ((CustomerBill.mk ['1'] 2 1 0 0 0 0 140).update
      (CustomerBill.mk ['2'] 0 0 2 1 0 0 20)).2 = some (['1'], ['2']) :=
  (c8_update_fails_iff_accounts_differ _ _).2 (by decide)

/-- Claim C9 counterexample: no pair of numbers is classified differently after swapping origination and termination - the negation of the claimed existence. -/
theorem c9_counterexample :
    ¬ ∃ (a o t : List Char) (s e : Int),
        (CallInfo.mk a o t s e).get_call_type ≠ (CallInfo.mk a t o s e).get_call_type := by
  push_neg
  intro a o t s e
  exact get_call_type_swap a o t s e

/-- Claim C9 as amended: classification is symmetric in the two phone numbers. -/
theorem c9_call_type_symmetric (a o t : List Char) (s e : Int) :
    (CallInfo.mk a o t s e).get_call_type = (CallInfo.mk a t o s e).get_call_type :=
  get_call_type_swap a o t s e

/-- Claim C10 (confirmed): a failed `update` leaves every field of the target bill unchanged; the account check precedes all mutation. -/
theorem c10_failed_update_preserves_bill (b1 b2 : CustomerBill)
    (h : b1.account_number ≠ b2.account_number) :
    (b1.update b2).1 = b1 ∧ (b1.update b2).2.isSome := by
  unfold CustomerBill.update
  simp [h]

/-- Witness for C10: a cross-account merge leaves the target bill intact. -/
theorem c10_witness :
    ((CustomerBill.mk ['1'] 2 1 0 0 0 0 140).update
      (CustomerBill.mk ['7'] 0 0 2 1 0 0 20)).1 = CustomerBill.mk ['1'] 2 1 0 0 0 0 140 :=
  (c10_failed_update_preserves_bill _ _ (by decide)).1
